import Mathlib

/-!
Verification of the query-search core of the mcp-obsidian vault server.

The JavaScript sources (`src/search.js`, `src/search-operators.js`,
`src/search-context.js`, `src/title-search.js`, `src/tools.js`) are shallowly
embedded below.  JavaScript strings are modelled as `List Char` (the ASCII
fragment; `String.prototype.toLowerCase` is modelled per character by
`Char.toLower`, which agrees with JavaScript on ASCII).  Fallible code
(`buildSearchExpression`, which throws on malformed token streams) is modelled
with `Except`.
-/

namespace Obsidian

/-- JavaScript strings are modelled as lists of characters. -/
abbrev JSStr := List Char

/-- Conversion helper for writing JavaScript string literals. -/
def str (s : String) : JSStr := s.toList

/-- JavaScript `\s` (ASCII fragment): space, tab, newline, carriage return,
vertical tab and form feed. -/
def isSpace (c : Char) : Bool :=
  c = ' ' || c = '\t' || c = '\n' || c = '\r' || c = '\x0b' || c = '\x0c'

/-- `String.prototype.toLowerCase`, modelled per character. -/
def lowerStr (s : JSStr) : JSStr := s.map Char.toLower

/-- JavaScript `String.prototype.includes`: substring containment. -/
def containsSub (hay needle : JSStr) : Bool :=
  match hay with
  | [] => needle.isEmpty
  | c :: t => needle.isPrefixOf (c :: t) || containsSub t needle

/-- JavaScript `String.prototype.trim` (over the modelled whitespace class). -/
def trimStr (s : JSStr) : JSStr :=
  ((s.dropWhile isSpace).reverse.dropWhile isSpace).reverse

/-- JavaScript `content.split('\n')`. -/
def splitLines : JSStr → List JSStr
  | [] => [[]]
  | c :: rest =>
    if c = '\n' then [] :: splitLines rest
    else
      match splitLines rest with
      | [] => [[c]]
      | l :: ls => (c :: l) :: ls

/-- JavaScript `x || y` on strings: `y` when `x` is the empty string. -/
def jsOrStr (x y : JSStr) : JSStr := if x = [] then y else x

/-! ## Tokens and expression trees (`src/search-operators.js`) -/

/-- A token produced by `tokenizeQuery`. -/
inductive Token where
  | term (value : JSStr)
  | fieldTok (field : JSStr) (value : JSStr)
  | andTok
  | orTok
  | notTok
  | lparen
  | rparen
deriving DecidableEq, Repr

/-- A node of the search expression tree built by `buildSearchExpression`. -/
inductive Expr where
  | term (value : JSStr)
  | fieldSpec (field : JSStr) (value : JSStr)
  | andE (left right : Expr)
  | orE (left right : Expr)
  | notE (operand : Expr)
deriving DecidableEq, Repr

/-- Characters that terminate word collection in the tokenizer:
whitespace, `"`, `(` and `)`. -/
def wordStop (c : Char) : Bool :=
  isSpace c || c = '"' || c = '(' || c = ')'

theorem length_dropWhile_le (p : Char → Bool) :
    ∀ l : List Char, (l.dropWhile p).length ≤ l.length := by
  intro l
  induction l with
  | nil => simp [List.dropWhile]
  | cons c t ih =>
    simp only [List.dropWhile]
    cases p c <;> simp
    omega

/-- The lookahead of the minus rule (`search-operators.js`, line 339):
`i + 1 < query.length && /\\S/.test(query[i + 1])`. -/
def minusNextNonSpace (rest : List Char) : Bool :=
  match rest with
  | r :: _ => !(isSpace r)
  | [] => false

/-- The character-scanning loop of `tokenizeQuery` (`search-operators.js`,
lines 304-414), written with a fuel counter for structural recursion: every
scanning step consumes at least one character, so `cs.length + 1` steps
always suffice (see `tokenizeChars`).  The branch for a field value that
itself starts with a quote (source lines 369-394) is unreachable, because
word collection stops at `"` so a collected word never contains a quote;
its inner accumulation loop (which does not advance past whitespace in the
source) is modelled totally by consuming up to the closing quote. -/
def tokenizeLoop : Nat → List Char → List Token
  | 0, _ => []
  | _ + 1, [] => []
  | fuel + 1, c :: rest =>
    if isSpace c then tokenizeLoop fuel rest
    else if c = '"' then
      let inside := rest.takeWhile (fun x => !(x = '"'))
      match rest.dropWhile (fun x => !(x = '"')) with
      | [] => []
      | _ :: after => Token.term inside :: tokenizeLoop fuel after
    else if c = '(' then Token.lparen :: tokenizeLoop fuel rest
    else if c = ')' then Token.rparen :: tokenizeLoop fuel rest
    else if c = '-' && minusNextNonSpace rest then
      Token.notTok :: tokenizeLoop fuel rest
    else
      let w := (c :: rest).takeWhile (fun x => !(wordStop x))
      let rest' := (c :: rest).dropWhile (fun x => !(wordStop x))
      if w = str "AND" || w = str "&&" then Token.andTok :: tokenizeLoop fuel rest'
      else if w = str "OR" || w = str "||" then Token.orTok :: tokenizeLoop fuel rest'
      else if w = str "NOT" then Token.notTok :: tokenizeLoop fuel rest'
      else if w.contains ':' then
        let field := w.takeWhile (fun x => !(x = ':'))
        let value := (w.dropWhile (fun x => !(x = ':'))).drop 1
        if field ≠ [] ∧ value ≠ [] then
          if value.head? = some '"' then
            -- Unreachable: `w` cannot contain `"` (see the doc comment).
            let quotedContent := value.drop 1
            if quotedContent.contains '"' then
              Token.fieldTok (lowerStr field) (quotedContent.takeWhile (fun x => !(x = '"')))
                :: tokenizeLoop fuel rest'
            else
              let fullValue := quotedContent ++ rest'.takeWhile (fun x => !(x = '"'))
              match rest'.dropWhile (fun x => !(x = '"')) with
              | [] => []
              | _ :: after => Token.fieldTok (lowerStr field) fullValue :: tokenizeLoop fuel after
          else
            Token.fieldTok (lowerStr field) value :: tokenizeLoop fuel rest'
        else if field ≠ [] ∧ value = [] ∧ rest'.head? = some '"' then
          let afterQuote := rest'.drop 1
          let inside := afterQuote.takeWhile (fun x => !(x = '"'))
          match afterQuote.dropWhile (fun x => !(x = '"')) with
          | [] => []
          | _ :: after => Token.fieldTok (lowerStr field) inside :: tokenizeLoop fuel after
        else tokenizeLoop fuel rest'
      else Token.term w :: tokenizeLoop fuel rest'

/-- The tokenizer scanning loop at its canonical fuel. -/
def tokenizeChars (cs : List Char) : List Token := tokenizeLoop (cs.length + 1) cs

/-- Does an implicit AND get inserted between these two adjacent tokens?
(`search-operators.js`, lines 421-434). -/
def needsAnd (cur next : Token) : Bool :=
  (match cur with
   | Token.term _ => true
   | Token.fieldTok _ _ => true
   | Token.rparen => true
   | _ => false) &&
  (match next with
   | Token.term _ => true
   | Token.fieldTok _ _ => true
   | Token.lparen => true
   | Token.notTok => true
   | _ => false)

/-- The implicit-AND insertion pass of `tokenizeQuery`. -/
def insertImplicitAnd : List Token → List Token
  | [] => []
  | [t] => [t]
  | t :: u :: rest =>
    if needsAnd t u then t :: Token.andTok :: insertImplicitAnd (u :: rest)
    else t :: insertImplicitAnd (u :: rest)

/-- `tokenizeQuery` (`search-operators.js`, lines 298-438). -/
def tokenizeQuery (query : JSStr) : List Token :=
  if query = [] ∨ trimStr query = [] then []
  else insertImplicitAnd (tokenizeChars query)

/-- Operator precedence used by the shunting-yard pass: NOT 3, AND 2, OR 1. -/
def prec : Token → Nat
  | Token.notTok => 3
  | Token.andTok => 2
  | Token.orTok => 1
  | _ => 0

/-- Should an operator on the stack be popped before pushing `t`? -/
def popsBefore (t top : Token) : Bool :=
  !(top = Token.lparen) && prec t ≤ prec top

/-- The shunting-yard pass of `buildSearchExpression`
(`search-operators.js`, lines 448-480).  `out` is the output queue (oldest
first), `ops` the operator stack (top first); the final clause pops the
remaining operators. -/
def shunt : List Token → List Token → List Token → List Token
  | [], out, ops => out ++ ops
  | t :: ts, out, ops =>
    match t with
    | Token.term _ => shunt ts (out ++ [t]) ops
    | Token.fieldTok _ _ => shunt ts (out ++ [t]) ops
    | Token.notTok => shunt ts out (t :: ops)
    | Token.andTok =>
      shunt ts (out ++ ops.takeWhile (popsBefore t)) (t :: ops.dropWhile (popsBefore t))
    | Token.orTok =>
      shunt ts (out ++ ops.takeWhile (popsBefore t)) (t :: ops.dropWhile (popsBefore t))
    | Token.lparen => shunt ts out (t :: ops)
    | Token.rparen =>
      let popped := ops.takeWhile (fun o => !(o = Token.lparen))
      let ops' := ops.dropWhile (fun o => !(o = Token.lparen))
      shunt ts (out ++ popped)
        (match ops' with
         | Token.lparen :: tail => tail
         | other => other)

/-- The RPN-to-tree pass of `buildSearchExpression`
(`search-operators.js`, lines 483-502).  The operand stack has its top at
the head; parenthesis tokens that leak into the queue are skipped silently,
exactly as in the source loop. -/
def rpnToExpr : List Token → List Expr → Except JSStr (List Expr)
  | [], stack => Except.ok stack
  | t :: ts, stack =>
    match t with
    | Token.term v => rpnToExpr ts (Expr.term v :: stack)
    | Token.fieldTok f v => rpnToExpr ts (Expr.fieldSpec f v :: stack)
    | Token.notTok =>
      match stack with
      | [] => Except.error (str "Invalid syntax: NOT requires an operand")
      | x :: s => rpnToExpr ts (Expr.notE x :: s)
    | Token.andTok =>
      match stack with
      | right :: left :: s => rpnToExpr ts (Expr.andE left right :: s)
      | _ => Except.error (str "Invalid syntax: AND requires two operands")
    | Token.orTok =>
      match stack with
      | right :: left :: s => rpnToExpr ts (Expr.orE left right :: s)
      | _ => Except.error (str "Invalid syntax: OR requires two operands")
    | Token.lparen => rpnToExpr ts stack
    | Token.rparen => rpnToExpr ts stack

/-- `buildSearchExpression` (`search-operators.js`, lines 445-509).
Returns `none` ("no expression") for an empty token list and raises on
malformed streams. -/
def buildSearchExpression (tokens : List Token) : Except JSStr (Option Expr) :=
  if tokens = [] then Except.ok none
  else
    match rpnToExpr (shunt tokens [] []) [] with
    | Except.error e => Except.error e
    | Except.ok [e] => Except.ok (some e)
    | Except.ok _ => Except.error (str "Invalid syntax: expression not well-formed")

/-- `parseSearchQuery` (`search-operators.js`, lines 569-572). -/
def parseSearchQuery (query : JSStr) : Except JSStr (Option Expr) :=
  buildSearchExpression (tokenizeQuery query)

/-! ## Expression evaluation (`search-operators.js`, lines 518-562) -/

/-- The document metadata view: title and tags
(`metadata.title || ''` and `metadata.tags || []` in the source). -/
structure Metadata where
  title : JSStr
  tags : List JSStr
deriving DecidableEq, Repr

/-- Evaluation of a non-null expression node against content and metadata. -/
def evalExpr (e : Expr) (content : JSStr) (md : Metadata) : Bool :=
  match e with
  | Expr.term v =>
    containsSub (lowerStr content) (lowerStr v) ||
    containsSub (lowerStr md.title) (lowerStr v) ||
    (md.tags.map lowerStr).any (fun tag => containsSub tag (lowerStr v))
  | Expr.fieldSpec f v =>
    if f = str "title" then containsSub (lowerStr md.title) (lowerStr v)
    else if f = str "content" then containsSub (lowerStr content) (lowerStr v)
    else if f = str "tag" then
      (md.tags.map lowerStr).any (fun tag => containsSub tag (lowerStr v))
    else false
  | Expr.andE l r => evalExpr l content md && evalExpr r content md
  | Expr.orE l r => evalExpr l content md || evalExpr r content md
  | Expr.notE x => !(evalExpr x content md)

/-- `evaluateExpression`: a null expression matches every document. -/
def evaluateExpression (e : Option Expr) (content : JSStr) (md : Metadata) : Bool :=
  match e with
  | none => true
  | some ex => evalExpr ex content md

/-- `extractSearchTerms` on a non-null node (`search.js`, lines 266-291):
positive TERM/FIELD values only, NOT subtrees contribute nothing. -/
def extractSearchTermsE : Expr → List JSStr
  | Expr.term v => [v]
  | Expr.fieldSpec _ v => [v]
  | Expr.andE l r => extractSearchTermsE l ++ extractSearchTermsE r
  | Expr.orE l r => extractSearchTermsE l ++ extractSearchTermsE r
  | Expr.notE _ => []

/-- `extractSearchTerms` including the null-expression guard. -/
def extractSearchTerms : Option Expr → List JSStr
  | none => []
  | some e => extractSearchTermsE e

/-! ## Context extraction and highlighting (`src/search-context.js`) -/

/-- A formatted context line. -/
structure CtxLine where
  number : Nat
  text : JSStr
  isMatch : Bool
deriving DecidableEq, Repr

/-- The `context` object attached to a formatted match. -/
structure MatchCtx where
  lines : List CtxLine
  highlighted : JSStr
deriving DecidableEq, Repr

/-- A search match: 1-based line number, trimmed line text, optional context. -/
structure SearchMatch where
  line : Nat
  content : JSStr
  context : Option MatchCtx
deriving DecidableEq, Repr

/-- The result of `extractContextLines`. -/
structure ContextData where
  lines : List JSStr
  startIndex : Nat
  matchIndex : Nat
deriving DecidableEq, Repr

/-- `extractContextLines` (`search-context.js`, lines 21-37).  Natural-number
subtraction models the source's `Math.max(0, …)` clamping. -/
def extractContextLines (lines : List JSStr) (matchIndex contextSize : Nat) : ContextData :=
  if lines.length = 0 then ⟨[], 0, 0⟩
  else
    let startIdx := matchIndex - contextSize
    let endIdx := min (lines.length - 1) (matchIndex + contextSize)
    ⟨(lines.drop startIdx).take (endIdx + 1 - startIdx), startIdx, matchIndex - startIdx⟩

/-- Does the (escaped, hence literal) query match at the head of `l`?
`caseSensitive` selects the regex flags `g` versus `gi`. -/
def matchesAt (l query : JSStr) (cs : Bool) : Bool :=
  if cs then query.isPrefixOf l else (lowerStr query).isPrefixOf (lowerStr l)

/-- The global-replace loop of `highlightMatch`: wrap each leftmost,
non-overlapping occurrence of the literal query in `**…**` (the regex built
by the source escapes every metacharacter, so it matches the query
literally, and `$&` re-emits the original matched slice).  Fuel counter:
each step consumes at least one character whenever the query is nonempty,
which `highlightMatch` guarantees. -/
def highlightLoop (query : JSStr) (cs : Bool) : Nat → List Char → List Char
  | 0, l => l
  | _ + 1, [] => []
  | fuel + 1, c :: rest =>
    if matchesAt (c :: rest) query cs then
      str "**" ++ (c :: rest).take query.length ++ str "**" ++
        highlightLoop query cs fuel ((c :: rest).drop query.length)
    else c :: highlightLoop query cs fuel rest

/-- `highlightMatch` (`search-context.js`, lines 46-56). -/
def highlightMatch (line query : JSStr) (cs : Bool) : JSStr :=
  if line = [] || query = [] then line
  else highlightLoop query cs (line.length + 1) line

/-- Line truncation inside `formatContextResult`. -/
def truncateLine (maxLen : Nat) (text : JSStr) : JSStr :=
  if maxLen < text.length then text.take maxLen ++ str "..." else text

/-- The indexed map over context lines inside `formatContextResult`. -/
def formatCtxLines (startIndex matchIdx maxLen : Nat) : Nat → List JSStr → List CtxLine
  | _, [] => []
  | idx, l :: ls =>
    ⟨startIndex + idx + 1, truncateLine maxLen l, idx == matchIdx⟩ ::
      formatCtxLines startIndex matchIdx maxLen (idx + 1) ls

/-- `formatContextResult` (`search-context.js`, lines 66-97).  Note that the
source takes no case-sensitivity argument and calls
`highlightMatch(matchedLine, query)` with its default `caseSensitive = false`. -/
def formatContextResult (m : SearchMatch) (ctx : ContextData) (query : JSStr)
    (maxLineLength : Nat) : SearchMatch :=
  { m with
    context := some
      ⟨formatCtxLines ctx.startIndex ctx.matchIndex maxLineLength 0 ctx.lines,
       highlightMatch (ctx.lines.getD ctx.matchIndex []) query false⟩ }

/-! ## Line matchers (`src/search.js`) -/

/-- Mapping every line to a match, for empty / null queries. -/
def linesToMatches : Nat → List JSStr → List SearchMatch
  | _, [] => []
  | idx, l :: ls => ⟨idx + 1, trimStr l, none⟩ :: linesToMatches (idx + 1) ls

/-- The per-line loop of `findMatchesInContent` (`search.js`, lines 36-56). -/
def findPlainGo (allLines : List JSStr) (query searchQuery : JSStr)
    (cs includeContext : Bool) (ctxN : Nat) : Nat → List JSStr → List SearchMatch
  | _, [] => []
  | idx, l :: ls =>
    let searchLine := if cs then l else lowerStr l
    let rest := findPlainGo allLines query searchQuery cs includeContext ctxN (idx + 1) ls
    if containsSub searchLine searchQuery then
      (let m : SearchMatch := ⟨idx + 1, trimStr l, none⟩
       if includeContext then
         formatContextResult m (extractContextLines allLines idx ctxN) query 150
       else m) :: rest
    else rest

/-- `findMatchesInContent` (`search.js`, lines 18-57). -/
def findMatchesInContent (content query : JSStr) (caseSensitive includeContext : Bool)
    (contextLines : Nat) : List SearchMatch :=
  if content = [] then []
  else if query = [] then linesToMatches 0 (splitLines content)
  else
    let lines := splitLines content
    let searchQuery := if caseSensitive then query else lowerStr query
    findPlainGo lines query searchQuery caseSensitive includeContext contextLines 0 lines

/-- The H1-heading test `line.trim().match(/^#\s+(.+)$/)` of
`findMatchesWithOperators` and `extractH1Title`.  The lines tested contain no
newline (they come from `split('\n')`), so the regex succeeds exactly when the
trimmed line is `#`, one whitespace character, and at least one further
character. -/
def isH1Line (l : JSStr) : Bool :=
  match trimStr l with
  | '#' :: c :: rest => isSpace c && !rest.isEmpty
  | _ => false

/-- The scanning loop of `extractH1Title`. -/
def extractH1Go : Nat → List JSStr → Option (JSStr × Nat)
  | _, [] => none
  | i, l :: ls =>
    if isH1Line l then some (trimStr ((trimStr l).drop 2), i + 1)
    else extractH1Go (i + 1) ls

/-- `extractH1Title` (`title-search.js`, lines 10-30): the first H1 line's
title (text after `#` and the following character, re-trimmed) and its
1-based line number. -/
def extractH1Title (content : JSStr) : Option (JSStr × Nat) :=
  if content = [] then none else extractH1Go 0 (splitLines content)

/-- The general-query per-line loop of `findMatchesWithOperators`
(`search.js`, lines 226-254).  `jsOrStr` models `highlightTerm || query`
(JavaScript treats an empty-string term as falsy). -/
def findOpsGo (allLines : List JSStr) (terms : List JSStr) (query : JSStr)
    (cs includeContext : Bool) (ctxN : Nat) : Nat → List JSStr → List SearchMatch
  | _, [] => []
  | idx, l :: ls =>
    let searchLine := if cs then l else lowerStr l
    let lineMatches := terms.any (fun t => containsSub searchLine (if cs then t else lowerStr t))
    let rest := findOpsGo allLines terms query cs includeContext ctxN (idx + 1) ls
    if lineMatches then
      (let m : SearchMatch := ⟨idx + 1, trimStr l, none⟩
       if includeContext then
         let highlightTerm :=
           (terms.find? (fun t => containsSub searchLine (if cs then t else lowerStr t))).getD []
         formatContextResult m (extractContextLines allLines idx ctxN)
           (jsOrStr highlightTerm query) 150
       else m) :: rest
    else rest

/-- `findMatchesWithOperators` (`search.js`, lines 163-258).  A parse failure
propagates as `Except.error` (the source lets the exception escape). -/
def findMatchesWithOperators (content query : JSStr) (md : Metadata)
    (caseSensitive includeContext : Bool) (contextLines : Nat) :
    Except JSStr (List SearchMatch) :=
  if content = [] then Except.ok []
  else
    match parseSearchQuery query with
    | Except.error e => Except.error e
    | Except.ok none => Except.ok (linesToMatches 0 (splitLines content))
    | Except.ok (some expr) =>
      if !(evalExpr expr content md) then Except.ok []
      else
        let lines := splitLines content
        let general :=
          findOpsGo lines (extractSearchTermsE expr) query caseSensitive includeContext
            contextLines 0 lines
        match expr with
        | Expr.fieldSpec f v =>
          if f = str "title" then
            Except.ok
              (match lines.findIdx? isH1Line with
               | none => []
               | some idx =>
                 let m : SearchMatch := ⟨idx + 1, trimStr (lines.getD idx []), none⟩
                 [if includeContext then
                    formatContextResult m (extractContextLines lines idx contextLines) v 150
                  else m])
          else if f = str "tag" then
            Except.ok [⟨1, str "[Document matches tag: " ++ v ++ str "]", none⟩]
          else Except.ok general
        | _ => Except.ok general

/-! ## Result aggregation (`src/search.js`, lines 65-152) -/

/-- A per-file entry of a search result.  `partialFile` models the optional
JavaScript key (absent, hence falsy, except on truncated entries). -/
structure FileEntry where
  path : JSStr
  matchCount : Nat
  «matches» : List SearchMatch
  partialFile : Bool
deriving DecidableEq, Repr

/-- A search-results object.  `truncated`/`message` model the optional
JavaScript keys (absent, hence false/empty, until `limitSearchResults`
sets them). -/
structure SearchResult where
  files : List FileEntry
  totalMatches : Nat
  fileCount : Nat
  filesSearched : Nat
  truncated : Bool
  message : JSStr
deriving DecidableEq, Repr

/-- One trailing slash removed: `replace(/\/$/, '')`. -/
def dropTrailingSlash (s : JSStr) : JSStr :=
  if s.getLast? = some '/' then s.dropLast else s

/-- `makeRelativePath` (`search.js`, lines 90-104). -/
def makeRelativePath (absolutePath basePath : JSStr) : JSStr :=
  if absolutePath = [] ∨ basePath = [] then absolutePath
  else
    let normalizedBase := dropTrailingSlash basePath
    let normalizedPath := dropTrailingSlash absolutePath
    if (normalizedBase ++ ['/']).isPrefixOf normalizedPath then
      normalizedPath.drop (normalizedBase.length + 1)
    else absolutePath

/-- `transformSearchResults` (`search.js`, lines 65-82): full `matchCount`
and total, but at most the first 5 matches kept per file. -/
def transformSearchResults (fileMatches : List (JSStr × List SearchMatch))
    (basePath : JSStr) : SearchResult :=
  { files := fileMatches.map (fun fm =>
      ⟨makeRelativePath fm.1 basePath, fm.2.length, fm.2.take 5, false⟩)
  , totalMatches := (fileMatches.map (fun fm => fm.2.length)).sum
  , fileCount := fileMatches.length
  , filesSearched := fileMatches.length
  , truncated := false
  , message := [] }

/-- The accumulation loop of `limitSearchResults` (`search.js`, lines
119-142), returning the kept files and the final accumulated match count. -/
def limitFilesGo (maxResults : Nat) : List FileEntry → Nat → List FileEntry × Nat
  | [], acc => ([], acc)
  | f :: rest, acc =>
    if maxResults ≤ acc then ([], acc)
    else
      let remainingSlots := maxResults - acc
      if f.matchCount ≤ remainingSlots then
        let r := limitFilesGo maxResults rest (acc + f.matchCount)
        (f :: r.1, r.2)
      else
        let r := limitFilesGo maxResults rest maxResults
        (⟨f.path, remainingSlots, f.«matches».take remainingSlots, true⟩ :: r.1, r.2)

/-- The truncation message template of `limitSearchResults`. -/
def limitMessage (maxResults fileCount : Nat) : JSStr :=
  str "Results limited to " ++ str (toString maxResults) ++ str " matches across " ++
    str (toString fileCount) ++ str " files"

/-- `limitSearchResults` (`search.js`, lines 112-152). -/
def limitSearchResults (searchResults : SearchResult) (maxResults : Nat) : SearchResult :=
  if searchResults.totalMatches ≤ maxResults then searchResults
  else
    let r := limitFilesGo maxResults searchResults.files 0
    { files := r.1
    , totalMatches := r.2
    , fileCount := r.1.length
    , filesSearched := searchResults.filesSearched
    , truncated := true
    , message := limitMessage maxResults r.1.length }

/-! ## The vault search pipeline (`src/tools.js`, lines 35-104) -/

/-- JavaScript `\w`: ASCII letters, digits and underscore. -/
def isWordChar (c : Char) : Bool := c.isAlphanum || c = '_'

/-- Word-bounded occurrence test at one scan position. -/
def wordBoundedAt (prev : Option Char) (restOfQuery kw : JSStr) : Bool :=
  kw.isPrefixOf restOfQuery &&
  (match prev with | none => true | some p => !(isWordChar p)) &&
  (match restOfQuery.drop kw.length with | [] => true | c :: _ => !(isWordChar c))

/-- Scan for a word-bounded occurrence of `kw`. -/
def hasWordBoundedGo (kw : JSStr) : Option Char → JSStr → Bool
  | prev, [] => wordBoundedAt prev [] kw
  | prev, c :: rest => wordBoundedAt prev (c :: rest) kw || hasWordBoundedGo kw (some c) rest

/-- Does `q` contain `kw` with `\b` word boundaries on both sides? -/
def hasWordBounded (q kw : JSStr) : Bool := hasWordBoundedGo kw none q

/-- The operator-detection heuristic of `searchVault` (`tools.js`, line 73):
the regex `/\b(AND|OR|NOT)\b|[:\-()]|"/`. -/
def hasOperators (q : JSStr) : Bool :=
  hasWordBounded q (str "AND") || hasWordBounded q (str "OR") || hasWordBounded q (str "NOT") ||
  q.any (fun c => c = ':' || c = '-' || c = '(' || c = ')' || c = '"')

/-- Lexicographic string comparison by character code (the default
`Array.prototype.sort` comparison, ASCII fragment). -/
def jsStrLe : JSStr → JSStr → Bool
  | [], _ => true
  | _ :: _, [] => false
  | a :: restA, b :: restB => if a = b then jsStrLe restA restB else decide (a < b)

/-- Stable insertion into a path-sorted corpus. -/
def insertSorted (x : JSStr × JSStr) : List (JSStr × JSStr) → List (JSStr × JSStr)
  | [] => [x]
  | y :: ys => if jsStrLe x.1 y.1 then x :: y :: ys else y :: insertSorted x ys

/-- `files.sort()` of `searchVault`, modelled as insertion sort on paths. -/
def sortCorpus : List (JSStr × JSStr) → List (JSStr × JSStr)
  | [] => []
  | x :: xs => insertSorted x (sortCorpus xs)

/-- `titleData ? titleData.title : ''` (`tools.js`, line 81). -/
def titleOf (content : JSStr) : JSStr :=
  match extractH1Title content with
  | some ti => ti.1
  | none => []

/-- The per-file matching loop of `searchVault` (`tools.js`, lines 59-99) on
an in-memory corpus of `(path, content)` pairs.  `extractTagsFn` stands for
`extractTags` of `tags.js`, whose definition is not among the provided
sources; the aggregation behaviour proved below holds for every tag
extractor.  The per-file `try`/`catch` of the source skips a file whose
processing throws, which the `Except.error` arm models. -/
def searchVaultMatches (extractTagsFn : JSStr → List JSStr)
    (corpus : List (JSStr × JSStr)) (query : JSStr) (cs includeContext : Bool)
    (ctxN : Nat) : List (JSStr × List SearchMatch) :=
  (sortCorpus corpus).filterMap (fun pc =>
    let ms :=
      if hasOperators query then
        match findMatchesWithOperators pc.2 query ⟨titleOf pc.2, extractTagsFn pc.2⟩
            cs includeContext ctxN with
        | Except.error _ => []
        | Except.ok ms => ms
      else findMatchesInContent pc.2 query cs includeContext ctxN
    if ms = [] then none else some (pc.1, ms))

/-- A pagination descriptor. -/
structure Pagination where
  total : Nat
  returned : Nat
  limit : Nat
  offset : Nat
  hasMore : Bool
deriving DecidableEq, Repr

/-- A paginated search-results object. -/
structure PaginatedResult where
  files : List FileEntry
  totalMatches : Nat
  fileCount : Nat
  filesSearched : Nat
  pagination : Pagination
deriving DecidableEq, Repr

/-- All per-file matches flattened in file order, each tagged with its path. -/
def flatMatches (files : List FileEntry) : List (JSStr × SearchMatch) :=
  (files.map (fun f => f.«matches».map (fun m => (f.path, m)))).flatten

/-- Modelled from the spec: `paginateSearchResults` is imported by `tools.js`
from `search.js` but its definition is not among the provided sources.
Following §4.7 of the specification, it flattens all per-file matches into
one ordered sequence (file order, then line order), applies `offset`/`limit`
slicing, regroups the sliced matches back into per-file buckets preserving
original file order and recomputing each file's `matchCount`
(`regroupFiles`), and attaches
`{total, returned, limit, offset, hasMore: offset + returned < total}`. -/
def regroupFiles (s : List (JSStr × SearchMatch)) (files : List FileEntry) :
    List FileEntry :=
  files.filterMap (fun f =>
    let bucket := (s.filter (fun pm => pm.1 = f.path)).map (fun pm => pm.2)
    if bucket.isEmpty then none
    else some ⟨f.path, bucket.length, bucket, false⟩)

/-- Modelled from the spec (continued): the paginator itself. -/
def paginateSearchResults (r : SearchResult) (limit offset : Nat) : PaginatedResult :=
  let flat := flatMatches r.files
  let slice := (flat.drop offset).take limit
  let files := regroupFiles slice r.files
  { files := files
  , totalMatches := slice.length
  , fileCount := files.length
  , filesSearched := r.filesSearched
  , pagination :=
      ⟨flat.length, slice.length, limit, offset, decide (offset + slice.length < flat.length)⟩ }

/-- The pure core of `searchVault` (`tools.js`, lines 35-104): sort the
corpus, match each file, transform, paginate. -/
def searchVaultPure (extractTagsFn : JSStr → List JSStr)
    (corpus : List (JSStr × JSStr)) (vaultPath query : JSStr)
    (cs includeContext : Bool) (ctxN limit offset : Nat) : PaginatedResult :=
  paginateSearchResults
    (transformSearchResults (searchVaultMatches extractTagsFn corpus query cs includeContext ctxN)
      vaultPath)
    limit offset

/-- The matches of one returned page, flattened with their paths. -/
def pageFlat (p : PaginatedResult) : List (JSStr × SearchMatch) := flatMatches p.files

/-- Request pages at offsets `0, limit, 2·limit, …` until a page reports
`hasMore = false`.  The fuel bound `total + 1` covers every run, since each
step past the first requires `offset + limit < total`. -/
def collectPagesGo (r : SearchResult) (limit : Nat) : Nat → Nat → List PaginatedResult
  | _, 0 => []
  | offset, fuel + 1 =>
    let p := paginateSearchResults r limit offset
    if p.pagination.hasMore then p :: collectPagesGo r limit (offset + limit) fuel
    else [p]

/-- All pages of a result under the claimed offset schedule. -/
def collectPages (r : SearchResult) (limit : Nat) : List PaginatedResult :=
  collectPagesGo r limit 0 ((flatMatches r.files).length + 1)

/-- All pages returned by the paginated vault search. -/
def collectVaultPages (extractTagsFn : JSStr → List JSStr)
    (corpus : List (JSStr × JSStr)) (vaultPath query : JSStr)
    (cs includeContext : Bool) (ctxN limit : Nat) : List PaginatedResult :=
  collectPages
    (transformSearchResults (searchVaultMatches extractTagsFn corpus query cs includeContext ctxN)
      vaultPath)
    limit

end Obsidian

namespace Obsidian

/-! ## Claim C2: tokenizing the three example queries -/

/-- C2, counterexample: tokenizing `"a&&b"` does not produce an AND-rooted
tree.  Word collection only stops at whitespace, quotes and parentheses, so
`a&&b` is a single word, which is not equal to the operator word `&&` and
therefore becomes one TERM leaf. -/
theorem claim2_counterexample :
    parseSearchQuery (str "a&&b") = Except.ok (some (Expr.term (str "a&&b"))) ∧
    parseSearchQuery (str "a&&b") ≠
      Except.ok (some (Expr.andE (Expr.term (str "a")) (Expr.term (str "b")))) := by
  refine ⟨rfl, ?_⟩
  intro h
  rw [show parseSearchQuery (str "a&&b") = Except.ok (some (Expr.term (str "a&&b"))) from rfl] at h
  simp [str] at h

/-- C2, amended: tokenizing `"a AND b"`, `"a b"` and `"a && b"` (with the
`&&` operator standing as its own word) all produce the AND-rooted tree with
TERM leaves `a` and `b`; `"a&&b"` instead produces the single TERM `a&&b`. -/
theorem claim2_and_tokenizations :
    parseSearchQuery (str "a AND b") =
      Except.ok (some (Expr.andE (Expr.term (str "a")) (Expr.term (str "b")))) ∧
    parseSearchQuery (str "a b") =
      Except.ok (some (Expr.andE (Expr.term (str "a")) (Expr.term (str "b")))) ∧
    parseSearchQuery (str "a && b") =
      Except.ok (some (Expr.andE (Expr.term (str "a")) (Expr.term (str "b")))) ∧
    parseSearchQuery (str "a&&b") = Except.ok (some (Expr.term (str "a&&b"))) :=
  ⟨rfl, rfl, rfl, rfl⟩

/-! ## Claim C8: highlightMatch wraps occurrences, escaping metacharacters -/

/-- C8: `highlightMatch` wraps every non-overlapping occurrence of the query
in `**…**`; because the source escapes regex metacharacters before building
the matcher, `highlightMatch("Price is $10.99", "$10.99")` returns
`"Price is **$10.99**"` (an unescaped `$10.99` regex would match nothing).
The further conjuncts exercise repeated and case-insensitive occurrences. -/
theorem claim8_highlightMatch :
    highlightMatch (str "Price is $10.99") (str "$10.99") false = str "Price is **$10.99**" ∧
    highlightMatch (str "Price is $10.99") (str "$10.99") true = str "Price is **$10.99**" ∧
    highlightMatch (str "test this test again") (str "test") false =
      str "**test** this **test** again" ∧
    highlightMatch (str "This is a TEST line") (str "test") false =
      str "This is a **TEST** line" ∧
    highlightMatch (str "This is a TEST line") (str "test") true = str "This is a TEST line" :=
  ⟨rfl, rfl, rfl, rfl, rfl⟩

/-! ## Claim C9: transformSearchResults caps matches at 5 per file -/

/-- C9: `transformSearchResults` reports each file's full `matchCount` and
their sum as `totalMatches`, but attaches only the first 5 matches per file,
so a file's match list can be shorter than its reported `matchCount` (the
last conjunct shows a file with `matchCount = 6` and 5 attached matches). -/
theorem claim9_transformSearchResults :
    (∀ (fileMatches : List (JSStr × List SearchMatch)) (basePath : JSStr),
      ((transformSearchResults fileMatches basePath).files.map FileEntry.matchCount =
        fileMatches.map (fun fm => fm.2.length)) ∧
      ((transformSearchResults fileMatches basePath).files.map FileEntry.«matches» =
        fileMatches.map (fun fm => fm.2.take 5)) ∧
      (transformSearchResults fileMatches basePath).totalMatches =
        (fileMatches.map (fun fm => fm.2.length)).sum) ∧
    ((transformSearchResults [(str "a.md", List.replicate 6 ⟨1, str "x", none⟩)] []).files.map
      (fun f => (f.matchCount, f.«matches».length)) = [(6, 5)]) := by
  refine ⟨fun fileMatches basePath => ⟨?_, ?_, rfl⟩, rfl⟩
  · simp [transformSearchResults]
  · simp [transformSearchResults]

end Obsidian

namespace Obsidian

/-! ## Claim C5: the expression evaluator -/

/-- C5: `evaluateExpression` is total (it is a total function by
construction) and case-insensitive: TERM tests content, title and tags as
lower-cased substrings; FIELD tests only the named attribute, any other
field name evaluating to false; AND/OR/NOT are boolean conjunction,
disjunction and negation; the null "no expression" evaluates to true.  The
final conjunct states case-insensitivity: lower-casing the document and the
needle changes nothing. -/
theorem char_toLower_idem (c : Char) : c.toLower.toLower = c.toLower := by
  simp only [Char.toLower]
  split
  · rename_i h
    have h2 : (c.toNat + 32).isValidChar := by
      left
      simp at h
      omega
    have h3 : (Char.ofNat (c.toNat + 32)).toNat = c.toNat + 32 := by
      rw [Char.ofNat, dif_pos h2]
      simp [Char.toNat, Char.ofNatAux, UInt32.toNat]
    split
    · rename_i h4
      simp only [h3] at h4
      simp at h
      omega
    · rfl
  · rfl

theorem lowerStr_idem (s : JSStr) : lowerStr (lowerStr s) = lowerStr s := by
  simp only [lowerStr, List.map_map]
  exact List.map_congr_left (fun c _ => char_toLower_idem c)

theorem lowerStrList_idem (l : List JSStr) : (l.map lowerStr).map lowerStr = l.map lowerStr := by
  rw [List.map_map]
  exact List.map_congr_left (fun s _ => lowerStr_idem s)

theorem claim5_evaluateExpression :
    (∀ content md, evaluateExpression none content md = true) ∧
    (∀ v content md, evaluateExpression (some (Expr.term v)) content md =
      (containsSub (lowerStr content) (lowerStr v) ||
       containsSub (lowerStr md.title) (lowerStr v) ||
       md.tags.any (fun tag => containsSub (lowerStr tag) (lowerStr v)))) ∧
    (∀ v content md, evaluateExpression (some (Expr.fieldSpec (str "title") v)) content md =
      containsSub (lowerStr md.title) (lowerStr v)) ∧
    (∀ v content md, evaluateExpression (some (Expr.fieldSpec (str "content") v)) content md =
      containsSub (lowerStr content) (lowerStr v)) ∧
    (∀ v content md, evaluateExpression (some (Expr.fieldSpec (str "tag") v)) content md =
      md.tags.any (fun tag => containsSub (lowerStr tag) (lowerStr v))) ∧
    (∀ f v content md, f ≠ str "title" → f ≠ str "content" → f ≠ str "tag" →
      evaluateExpression (some (Expr.fieldSpec f v)) content md = false) ∧
    (∀ l r content md, evaluateExpression (some (Expr.andE l r)) content md =
      (evaluateExpression (some l) content md && evaluateExpression (some r) content md)) ∧
    (∀ l r content md, evaluateExpression (some (Expr.orE l r)) content md =
      (evaluateExpression (some l) content md || evaluateExpression (some r) content md)) ∧
    (∀ x content md, evaluateExpression (some (Expr.notE x)) content md =
      !(evaluateExpression (some x) content md)) ∧
    (∀ e content md, evaluateExpression e (lowerStr content)
        ⟨lowerStr md.title, md.tags.map lowerStr⟩ = evaluateExpression e content md) := by
  refine ⟨fun _ _ => rfl, ?_, fun _ _ _ => rfl, fun _ _ _ => rfl, ?_, ?_, ?_, ?_, ?_, ?_⟩
  · intro v content md
    rw [show evaluateExpression (some (Expr.term v)) content md =
        (containsSub (lowerStr content) (lowerStr v) ||
         containsSub (lowerStr md.title) (lowerStr v) ||
         (md.tags.map lowerStr).any (fun tag => containsSub tag (lowerStr v))) from rfl,
      List.any_map]
    rfl
  · intro v content md
    rw [show evaluateExpression (some (Expr.fieldSpec (str "tag") v)) content md =
        (md.tags.map lowerStr).any (fun tag => containsSub tag (lowerStr v)) from rfl,
      List.any_map]
    rfl
  · intro f v content md h1 h2 h3
    simp [evaluateExpression, evalExpr, h1, h2, h3]
  · intro l r content md; rfl
  · intro l r content md; rfl
  · intro x content md; rfl
  · intro e content md
    cases e with
    | none => rfl
    | some ex =>
      show evalExpr ex (lowerStr content) ⟨lowerStr md.title, md.tags.map lowerStr⟩ =
        evalExpr ex content md
      induction ex with
      | term v =>
        simp only [evalExpr, lowerStr_idem, lowerStrList_idem]
      | fieldSpec f v =>
        simp only [evalExpr]
        split
        · rw [lowerStr_idem]
        · split
          · rw [lowerStr_idem]
          · split
            · rw [lowerStrList_idem]
            · rfl
      | andE l r ihl ihr => simp only [evalExpr, ihl, ihr]
      | orE l r ihl ihr => simp only [evalExpr, ihl, ihr]
      | notE x ih => simp only [evalExpr, ih]

/-- C5 witness: the unknown field name `body` evaluates to false on a
document that contains the value everywhere. -/
theorem claim5_witness :
    (str "body" ≠ str "title" ∧ str "body" ≠ str "content" ∧ str "body" ≠ str "tag") ∧
    evaluateExpression (some (Expr.fieldSpec (str "body") (str "x"))) (str "x")
      ⟨str "x", [str "x"]⟩ = false :=
  ⟨⟨by decide, by decide, by decide⟩,
   claim5_evaluateExpression.2.2.2.2.2.1 (str "body") (str "x") (str "x")
     ⟨str "x", [str "x"]⟩ (by decide) (by decide) (by decide)⟩

/-! ## Claim C6: positive-term extraction never crosses a NOT boundary -/

/-- A value occurs at a TERM/FIELD leaf reachable without crossing a NOT. -/
inductive OutsideNot : Expr → JSStr → Prop where
  | term (v : JSStr) : OutsideNot (Expr.term v) v
  | fieldSpec (f v : JSStr) : OutsideNot (Expr.fieldSpec f v) v
  | andL {l r : Expr} {v : JSStr} : OutsideNot l v → OutsideNot (Expr.andE l r) v
  | andR {l r : Expr} {v : JSStr} : OutsideNot r v → OutsideNot (Expr.andE l r) v
  | orL {l r : Expr} {v : JSStr} : OutsideNot l v → OutsideNot (Expr.orE l r) v
  | orR {l r : Expr} {v : JSStr} : OutsideNot r v → OutsideNot (Expr.orE l r) v

/-- C6: the extractor returns exactly the values of TERM/FIELD leaves
reachable without crossing a NOT boundary — so no value that occurs only
inside a NOT subtree is ever returned; NOT subtrees contribute nothing,
AND/OR concatenate both children, leaves contribute their value. -/
theorem claim6_extractSearchTerms :
    (∀ x : Expr, extractSearchTermsE (Expr.notE x) = []) ∧
    (∀ l r : Expr, extractSearchTermsE (Expr.andE l r) =
      extractSearchTermsE l ++ extractSearchTermsE r) ∧
    (∀ l r : Expr, extractSearchTermsE (Expr.orE l r) =
      extractSearchTermsE l ++ extractSearchTermsE r) ∧
    (∀ v : JSStr, extractSearchTermsE (Expr.term v) = [v]) ∧
    (∀ f v : JSStr, extractSearchTermsE (Expr.fieldSpec f v) = [v]) ∧
    (∀ (e : Expr) (v : JSStr), v ∈ extractSearchTermsE e ↔ OutsideNot e v) := by
  refine ⟨fun _ => rfl, fun _ _ => rfl, fun _ _ => rfl, fun _ => rfl, fun _ _ => rfl, ?_⟩
  intro e v
  induction e with
  | term w =>
    simp only [extractSearchTermsE, List.mem_singleton]
    constructor
    · intro h
      subst h
      exact OutsideNot.term v
    · intro h
      cases h
      rfl
  | fieldSpec f w =>
    simp only [extractSearchTermsE, List.mem_singleton]
    constructor
    · intro h
      subst h
      exact OutsideNot.fieldSpec f v
    · intro h
      cases h
      rfl
  | andE l r ihl ihr =>
    simp only [extractSearchTermsE, List.mem_append, ihl, ihr]
    constructor
    · intro h
      rcases h with h | h
      · exact OutsideNot.andL h
      · exact OutsideNot.andR h
    · intro h
      cases h with
      | andL hh => exact Or.inl hh
      | andR hh => exact Or.inr hh
  | orE l r ihl ihr =>
    simp only [extractSearchTermsE, List.mem_append, ihl, ihr]
    constructor
    · intro h
      rcases h with h | h
      · exact OutsideNot.orL h
      · exact OutsideNot.orR h
    · intro h
      cases h with
      | orL hh => exact Or.inl hh
      | orR hh => exact Or.inr hh
  | notE x ih =>
    simp only [extractSearchTermsE, List.not_mem_nil, false_iff]
    intro h
    cases h

end Obsidian

namespace Obsidian

/-! ## Claim C10: highlighting always uses the case-insensitive default -/

theorem lowerStr_length (s : JSStr) : (lowerStr s).length = s.length := by
  simp [lowerStr]

theorem highlightLoop_lower_congr (q₁ q₂ : JSStr) (h : lowerStr q₁ = lowerStr q₂) :
    ∀ (fuel : Nat) (l : List Char),
      highlightLoop q₁ false fuel l = highlightLoop q₂ false fuel l := by
  have hlen : q₁.length = q₂.length := by
    have := congrArg List.length h
    simpa [lowerStr] using this
  intro fuel
  induction fuel with
  | zero => intro l; rfl
  | succ n ih =>
    intro l
    cases l with
    | nil => rfl
    | cons c rest =>
      have hm : matchesAt (c :: rest) q₁ false = matchesAt (c :: rest) q₂ false := by
        simp [matchesAt, h]
      simp only [highlightLoop, hm, hlen, ih]

theorem highlightMatch_lower_congr (l q₁ q₂ : JSStr) (h : lowerStr q₁ = lowerStr q₂) :
    highlightMatch l q₁ false = highlightMatch l q₂ false := by
  have hlen : q₁.length = q₂.length := by
    have h2 := congrArg List.length h
    simpa [lowerStr] using h2
  by_cases hq1 : q₁ = []
  · have hq2 : q₂ = [] := by
      cases q₂ with
      | nil => rfl
      | cons d ds =>
        rw [hq1] at hlen
        simp at hlen
    rw [hq1, hq2]
  · have hq2 : q₂ ≠ [] := by
      intro hh
      rw [hh] at hlen
      exact hq1 (List.eq_nil_of_length_eq_zero hlen)
    cases l with
    | nil => rfl
    | cons x xs =>
      have d1 : decide ((x :: xs : JSStr) = []) = false := by simp
      have d2 : decide (q₁ = []) = false := decide_eq_false hq1
      have d3 : decide (q₂ = []) = false := decide_eq_false hq2
      simp only [highlightMatch, d1, d2, d3, Bool.or_false, Bool.false_eq_true, if_false]
      exact highlightLoop_lower_congr q₁ q₂ h _ _

/-- C10: `formatContextResult` takes no case-sensitivity argument and builds
the highlighted rendering with `highlightMatch`'s default case-insensitive
mode, whatever flag the caller used for line matching; consequently two
highlight queries that differ only in letter case produce identical
formatted results. -/
theorem claim10_formatContextResult :
    (∀ (m : SearchMatch) (ctx : ContextData) (q : JSStr) (maxLen : Nat),
      ((formatContextResult m ctx q maxLen).context).map MatchCtx.highlighted =
        some (highlightMatch (ctx.lines.getD ctx.matchIndex []) q false)) ∧
    (∀ (q₁ q₂ : JSStr), lowerStr q₁ = lowerStr q₂ →
      ∀ (m : SearchMatch) (ctx : ContextData) (maxLen : Nat),
        formatContextResult m ctx q₁ maxLen = formatContextResult m ctx q₂ maxLen) := by
  refine ⟨fun _ _ _ _ => rfl, ?_⟩
  intro q₁ q₂ h m ctx maxLen
  simp only [formatContextResult]
  rw [highlightMatch_lower_congr _ q₁ q₂ h]

/-- C10 witness: the queries `TeSt` and `test` differ only in case and the
formatted results coincide. -/
theorem claim10_witness :
    lowerStr (str "TeSt") = lowerStr (str "test") ∧
    formatContextResult ⟨1, str "a TEST line", none⟩ ⟨[str "a TEST line"], 0, 0⟩
        (str "TeSt") 150 =
      formatContextResult ⟨1, str "a TEST line", none⟩ ⟨[str "a TEST line"], 0, 0⟩
        (str "test") 150 :=
  ⟨by decide,
   claim10_formatContextResult.2 (str "TeSt") (str "test") (by decide)
     ⟨1, str "a TEST line", none⟩ ⟨[str "a TEST line"], 0, 0⟩ 150⟩

end Obsidian

namespace Obsidian

/-! ## Claim C4: buildSearchExpression errors exactly on malformed streams -/

/-- Independent simulation of the RPN operand-stack size: TERM/FIELD push,
NOT needs one operand, AND/OR need two and consume one, parentheses are
skipped; `none` marks an underflow. -/
def rpnSim : List Token → Nat → Option Nat
  | [], n => some n
  | t :: ts, n =>
    match t with
    | Token.term _ => rpnSim ts (n + 1)
    | Token.fieldTok _ _ => rpnSim ts (n + 1)
    | Token.notTok => if n = 0 then none else rpnSim ts n
    | Token.andTok => if n < 2 then none else rpnSim ts (n - 1)
    | Token.orTok => if n < 2 then none else rpnSim ts (n - 1)
    | Token.lparen => rpnSim ts n
    | Token.rparen => rpnSim ts n

theorem rpnSim_spec :
    ∀ (queue : List Token) (stack : List Expr),
      rpnSim queue stack.length = ((rpnToExpr queue stack).toOption).map List.length := by
  intro queue
  induction queue with
  | nil => intro stack; rfl
  | cons t ts ih =>
    intro stack
    cases t with
    | term v => exact ih (Expr.term v :: stack)
    | fieldTok f v => exact ih (Expr.fieldSpec f v :: stack)
    | notTok =>
      cases stack with
      | nil => rfl
      | cons x s =>
        simp only [rpnSim, rpnToExpr, List.length_cons]
        rw [if_neg (by omega)]
        exact ih (Expr.notE x :: s)
    | andTok =>
      cases stack with
      | nil => rfl
      | cons r s =>
        cases s with
        | nil => rfl
        | cons l s2 =>
          simp only [rpnSim, rpnToExpr, List.length_cons]
          rw [if_neg (by omega)]
          exact ih (Expr.andE l r :: s2)
    | orTok =>
      cases stack with
      | nil => rfl
      | cons r s =>
        cases s with
        | nil => rfl
        | cons l s2 =>
          simp only [rpnSim, rpnToExpr, List.length_cons]
          rw [if_neg (by omega)]
          exact ih (Expr.orE l r :: s2)
    | lparen => exact ih stack
    | rparen => exact ih stack

end Obsidian

namespace Obsidian

/-- C4: `buildSearchExpression` returns the distinct "no expression" value
`none` for an empty token list (which evaluation treats as matching every
document), and for nonempty streams it raises an error exactly when the
shunted RPN queue is malformed: a NOT reaching an empty operand stack, an
AND/OR reaching fewer than two operands, or a final operand-stack size
different from 1 (`rpnSim` simulates exactly these three conditions). -/
theorem claim4_buildSearchExpression :
    (buildSearchExpression [] = Except.ok none) ∧
    (∀ content md, evaluateExpression none content md = true) ∧
    (∀ tokens : List Token, tokens ≠ [] →
      ((∃ e, buildSearchExpression tokens = Except.ok e) ↔
        rpnSim (shunt tokens [] []) 0 = some 1)) := by
  refine ⟨rfl, fun _ _ => rfl, ?_⟩
  intro tokens hne
  have hspec := rpnSim_spec (shunt tokens [] []) []
  simp only [List.length_nil] at hspec
  unfold buildSearchExpression
  rw [if_neg hne]
  cases hrpn : rpnToExpr (shunt tokens [] []) [] with
  | error e =>
    rw [hrpn] at hspec
    simp only [Except.toOption, Option.map_none'] at hspec
    rw [hspec]
    simp
  | ok s =>
    rw [hrpn] at hspec
    simp only [Except.toOption, Option.map_some'] at hspec
    rw [hspec]
    cases s with
    | nil => simp
    | cons e tail =>
      cases tail with
      | nil => simp
      | cons f tail2 => simp

/-- C4 witness: a bare AND token is malformed on both sides of the
equivalence. -/
theorem claim4_witness :
    ([Token.andTok] ≠ ([] : List Token)) ∧
    ((∃ e, buildSearchExpression [Token.andTok] = Except.ok e) ↔
      rpnSim (shunt [Token.andTok] [] []) 0 = some 1) :=
  ⟨by simp, claim4_buildSearchExpression.2.2 [Token.andTok] (by simp)⟩

end Obsidian

namespace Obsidian

/-! ## Claim C7: limitSearchResults truncation -/

theorem limitFilesGo_snd (m : Nat) :
    ∀ (files : List FileEntry) (acc : Nat), acc ≤ m →
      (limitFilesGo m files acc).2 = min m (acc + (files.map FileEntry.matchCount).sum) := by
  intro files
  induction files with
  | nil =>
    intro acc h
    simp only [limitFilesGo, List.map_nil, List.sum_nil, Nat.add_zero]
    omega
  | cons f rest ih =>
    intro acc h
    simp only [limitFilesGo, List.map_cons, List.sum_cons]
    split
    · rename_i h1
      simp only []
      omega
    · rename_i h1
      split
      · rename_i h2
        simp only []
        rw [ih (acc + f.matchCount) (by omega)]
        omega
      · rename_i h2
        simp only []
        rw [ih m (Nat.le_refl m)]
        omega

theorem limitFilesGo_fst_sum (m : Nat) :
    ∀ (files : List FileEntry) (acc : Nat), acc ≤ m →
      ((limitFilesGo m files acc).1.map FileEntry.matchCount).sum + acc =
        (limitFilesGo m files acc).2 := by
  intro files
  induction files with
  | nil =>
    intro acc h
    simp [limitFilesGo]
  | cons f rest ih =>
    intro acc h
    simp only [limitFilesGo]
    split
    · rename_i h1
      simp
    · rename_i h1
      split
      · rename_i h2
        have := ih (acc + f.matchCount) (by omega)
        simp only [List.map_cons, List.sum_cons]
        omega
      · rename_i h2
        have hs := limitFilesGo_snd m rest m (Nat.le_refl m)
        have := ih m (Nat.le_refl m)
        simp only [List.map_cons, List.sum_cons]
        omega

theorem limitFilesGo_mem (m : Nat) :
    ∀ (files : List FileEntry) (acc : Nat) (f : FileEntry),
      f ∈ (limitFilesGo m files acc).1 →
      f ∈ files ∨ (f.partialFile = true ∧ ∃ g ∈ files, f.path = g.path ∧
        f.matchCount < g.matchCount ∧ f.«matches» = g.«matches».take f.matchCount) := by
  intro files
  induction files with
  | nil =>
    intro acc f hf
    simp [limitFilesGo] at hf
  | cons fe rest ih =>
    intro acc f hf
    simp only [limitFilesGo] at hf
    split at hf
    · simp at hf
    · rename_i h1
      split at hf
      · rename_i h2
        simp only [List.mem_cons] at hf
        rcases hf with rfl | hf
        · exact Or.inl (List.mem_cons_self _ _)
        · rcases ih _ _ hf with hin | ⟨hp, g, hg, hrest⟩
          · exact Or.inl (List.mem_cons_of_mem _ hin)
          · exact Or.inr ⟨hp, g, List.mem_cons_of_mem _ hg, hrest⟩
      · rename_i h2
        simp only [List.mem_cons] at hf
        rcases hf with rfl | hf
        · refine Or.inr ⟨rfl, fe, List.mem_cons_self _ _, rfl, ?_, rfl⟩
          show m - acc < fe.matchCount
          omega
        · rcases ih _ _ hf with hin | ⟨hp, g, hg, hrest⟩
          · exact Or.inl (List.mem_cons_of_mem _ hin)
          · exact Or.inr ⟨hp, g, List.mem_cons_of_mem _ hg, hrest⟩

/-- C7: when `totalMatches` is within `maxResults` the input is returned
unchanged; otherwise the result is marked `truncated` with the message
naming the limit, its matches are cut off at exactly `maxResults` total, and
every returned file is either an input file taken whole or a `partialFile`
entry whose match array is the input file's sliced to the remaining
quota. -/
theorem claim7_limitSearchResults :
    (∀ (r : SearchResult) (m : Nat), r.totalMatches ≤ m → limitSearchResults r m = r) ∧
    (∀ (r : SearchResult) (m : Nat), m < r.totalMatches →
      (r.files.map FileEntry.matchCount).sum = r.totalMatches →
      (limitSearchResults r m).truncated = true ∧
      (limitSearchResults r m).message = limitMessage m (limitSearchResults r m).fileCount ∧
      (limitSearchResults r m).totalMatches = m ∧
      ((limitSearchResults r m).files.map FileEntry.matchCount).sum = m ∧
      (∀ f ∈ (limitSearchResults r m).files, f ∈ r.files ∨
        (f.partialFile = true ∧ ∃ g ∈ r.files, f.path = g.path ∧
          f.matchCount < g.matchCount ∧ f.«matches» = g.«matches».take f.matchCount))) := by
  constructor
  · intro r m h
    simp [limitSearchResults, h]
  · intro r m hlt hsum
    have hgt : ¬ r.totalMatches ≤ m := by omega
    have h2 := limitFilesGo_snd m r.files 0 (Nat.zero_le m)
    have h3 := limitFilesGo_fst_sum m r.files 0 (Nat.zero_le m)
    rw [hsum] at h2
    refine ⟨?_, ?_, ?_, ?_, ?_⟩
    · simp [limitSearchResults, hgt]
    · simp [limitSearchResults, hgt]
    · simp only [limitSearchResults, if_neg hgt]
      omega
    · simp only [limitSearchResults, if_neg hgt]
      omega
    · intro f hf
      simp only [limitSearchResults, if_neg hgt] at hf
      exact limitFilesGo_mem m r.files 0 f hf

/-- C7 witness: two files of three matches each, limited to four matches. -/
theorem claim7_witness :
    (4 < 6 ∧
     (([⟨str "a.md", 3, List.replicate 3 ⟨1, str "x", none⟩, false⟩,
        ⟨str "b.md", 3, List.replicate 3 ⟨1, str "x", none⟩, false⟩] :
          List FileEntry).map FileEntry.matchCount).sum = 6) ∧
    ((limitSearchResults
        ⟨[⟨str "a.md", 3, List.replicate 3 ⟨1, str "x", none⟩, false⟩,
          ⟨str "b.md", 3, List.replicate 3 ⟨1, str "x", none⟩, false⟩], 6, 2, 2, false, []⟩
        4).truncated = true ∧
     (limitSearchResults
        ⟨[⟨str "a.md", 3, List.replicate 3 ⟨1, str "x", none⟩, false⟩,
          ⟨str "b.md", 3, List.replicate 3 ⟨1, str "x", none⟩, false⟩], 6, 2, 2, false, []⟩
        4).totalMatches = 4) := by
  have h := claim7_limitSearchResults.2
    ⟨[⟨str "a.md", 3, List.replicate 3 ⟨1, str "x", none⟩, false⟩,
      ⟨str "b.md", 3, List.replicate 3 ⟨1, str "x", none⟩, false⟩], 6, 2, 2, false, []⟩
    4 (by decide) (by decide)
  exact ⟨⟨by decide, by decide⟩, h.1, h.2.2.1⟩

end Obsidian

namespace Obsidian

/-! ## Claim C1: plain-mode versus expression-mode matching -/

theorem containsSub_infix_iff (hay needle : JSStr) :
    containsSub hay needle = true ↔ needle <:+: hay := by
  induction hay with
  | nil =>
    simp only [containsSub, List.isEmpty_iff]
    constructor
    · intro h
      subst h
      exact List.infix_refl []
    · intro h
      simpa using h.length_le
  | cons c t ih =>
    simp only [containsSub, Bool.or_eq_true, List.isPrefixOf_iff_prefix, ih,
      List.infix_cons_iff]

theorem dropWhile_eq_self_of_false (p : Char → Bool) (l : List Char)
    (h : ∀ c ∈ l, p c = false) : l.dropWhile p = l := by
  cases l with
  | nil => rfl
  | cons c t =>
    rw [List.dropWhile_cons, if_neg]
    simp [h c (List.mem_cons_self c t)]

theorem trimStr_no_space (s : JSStr) (h : ∀ c ∈ s, isSpace c = false) : trimStr s = s := by
  unfold trimStr
  rw [dropWhile_eq_self_of_false isSpace s h,
    dropWhile_eq_self_of_false isSpace s.reverse (fun c hc => h c (List.mem_reverse.mp hc)),
    List.reverse_reverse]

theorem splitLines_ne_nil : ∀ cs : JSStr, splitLines cs ≠ [] := by
  intro cs
  cases cs with
  | nil => simp [splitLines]
  | cons c rest =>
    simp only [splitLines]
    split
    · simp
    · split <;> simp

theorem splitLines_parts :
    ∀ cs : JSStr, (∀ l ∈ splitLines cs, l <:+: cs) ∧
      (∀ (l0 : JSStr) (ls : List JSStr), splitLines cs = l0 :: ls → l0 <+: cs) := by
  intro cs
  induction cs with
  | nil =>
    constructor
    · intro l hl
      simp only [splitLines, List.mem_singleton] at hl
      subst hl
      exact List.infix_refl []
    · intro l0 ls h
      simp only [splitLines, List.cons.injEq] at h
      obtain ⟨h1, h2⟩ := h
      subst h1
      exact List.nil_prefix
  | cons c rest ih =>
    by_cases hc : c = '\n'
    · subst hc
      constructor
      · intro l hl
        rw [show splitLines ('\n' :: rest) = [] :: splitLines rest from by
          simp [splitLines]] at hl
        rcases List.mem_cons.mp hl with rfl | hl
        · exact List.nil_infix
        · exact List.infix_cons (ih.1 l hl)
      · intro l0 ls h
        rw [show splitLines ('\n' :: rest) = [] :: splitLines rest from by
          simp [splitLines]] at h
        rw [← (List.cons.injEq _ _ _ _).mp h |>.1]
        exact List.nil_prefix
    · rcases h0 : splitLines rest with _ | ⟨m0, ms⟩
      · exact absurd h0 (splitLines_ne_nil rest)
      · have hstep : splitLines (c :: rest) = (c :: m0) :: ms := by
          simp only [splitLines, if_neg hc, h0]
        have hm0 : m0 <+: rest := ih.2 m0 ms h0
        constructor
        · intro l hl
          rw [hstep] at hl
          rcases List.mem_cons.mp hl with rfl | hl
          · exact ((List.cons_prefix_cons.mpr ⟨rfl, hm0⟩)).isInfix
          · have : l ∈ splitLines rest := by rw [h0]; exact List.mem_cons_of_mem _ hl
            exact List.infix_cons (ih.1 l this)
        · intro l0 ls h
          rw [hstep] at h
          rw [← (List.cons.injEq _ _ _ _).mp h |>.1]
          exact List.cons_prefix_cons.mpr ⟨rfl, hm0⟩

theorem mem_splitLines_contains {content l w : JSStr} (cs : Bool)
    (hl : l ∈ splitLines content)
    (hc : containsSub (if cs then l else lowerStr l) (if cs then w else lowerStr w) = true) :
    containsSub (lowerStr content) (lowerStr w) = true := by
  have hinf : l <:+: content := (splitLines_parts content).1 l hl
  rw [containsSub_infix_iff] at hc ⊢
  cases cs with
  | false =>
    simp only [Bool.false_eq_true, if_false] at hc
    exact hc.trans (hinf.map Char.toLower)
  | true =>
    simp only [if_true] at hc
    exact (hc.trans hinf).map Char.toLower

end Obsidian

namespace Obsidian

theorem tokenizeLoop_nil : ∀ fuel : Nat, tokenizeLoop fuel [] = [] := by
  intro fuel
  cases fuel <;> rfl

set_option maxHeartbeats 2000000 in
theorem tokenizeChars_single (q : JSStr) (hq : q ≠ [])
    (hsp : ∀ c ∈ q, isSpace c = false)
    (hquote : '"' ∉ q) (hlp : '(' ∉ q) (hrp : ')' ∉ q)
    (hminus : '-' ∉ q) (hcolon : ':' ∉ q)
    (hand : q ≠ str "AND") (hamp : q ≠ str "&&")
    (hor : q ≠ str "OR") (hpipe : q ≠ str "||") (hnot : q ≠ str "NOT") :
    tokenizeChars q = [Token.term q] := by
  rcases hq0 : q with _ | ⟨c, rest⟩
  · exact absurd hq0 hq
  subst hq0
  have hcmem : c ∈ c :: rest := List.mem_cons_self c rest
  have hws : ∀ x ∈ c :: rest, (!(wordStop x)) = true := by
    intro x hx
    have h1 : isSpace x = false := hsp x hx
    have h2 : ¬ x = '"' := fun h => hquote (h ▸ hx)
    have h3 : ¬ x = '(' := fun h => hlp (h ▸ hx)
    have h4 : ¬ x = ')' := fun h => hrp (h ▸ hx)
    simp [wordStop, h1, h2, h3, h4]
  have htake : (c :: rest).takeWhile (fun x => !(wordStop x)) = c :: rest :=
    List.takeWhile_eq_self_iff.mpr hws
  have hdrop : (c :: rest).dropWhile (fun x => !(wordStop x)) = [] :=
    List.dropWhile_eq_nil_iff.mpr hws
  show tokenizeLoop ((c :: rest).length + 1) (c :: rest) = [Token.term (c :: rest)]
  rw [show (c :: rest).length + 1 = rest.length + 1 + 1 from by simp]
  simp only [tokenizeLoop]
  rw [if_neg (by simp [hsp c hcmem]),
    if_neg (show ¬(c = '"') from fun h => hquote (by rw [← h]; exact hcmem)),
    if_neg (show ¬(c = '(') from fun h => hlp (by rw [← h]; exact hcmem)),
    if_neg (show ¬(c = ')') from fun h => hrp (by rw [← h]; exact hcmem)),
    if_neg (by
      simp only [Bool.and_eq_true, decide_eq_true_eq, not_and]
      intro h
      exact absurd (by rw [← h]; exact hcmem) hminus)]
  simp only [htake, hdrop]
  rw [if_neg (by simp [hand, hamp]),
    if_neg (by simp [hor, hpipe]),
    if_neg (by simp [hnot])]
  rw [if_neg (by
    intro h
    exact hcolon (by simpa using h))]
  rw [tokenizeLoop_nil]

theorem tokenizeQuery_single (q : JSStr) (hq : q ≠ [])
    (hsp : ∀ c ∈ q, isSpace c = false)
    (hquote : '"' ∉ q) (hlp : '(' ∉ q) (hrp : ')' ∉ q)
    (hminus : '-' ∉ q) (hcolon : ':' ∉ q)
    (hand : q ≠ str "AND") (hamp : q ≠ str "&&")
    (hor : q ≠ str "OR") (hpipe : q ≠ str "||") (hnot : q ≠ str "NOT") :
    tokenizeQuery q = [Token.term q] := by
  unfold tokenizeQuery
  rw [if_neg (by
    rw [trimStr_no_space q hsp]
    simp [hq])]
  rw [show tokenizeChars q = [Token.term q] from
    tokenizeChars_single q hq hsp hquote hlp hrp hminus hcolon hand hamp hor hpipe hnot]
  rfl

theorem parseSearchQuery_single (q : JSStr) (hq : q ≠ [])
    (hsp : ∀ c ∈ q, isSpace c = false)
    (hquote : '"' ∉ q) (hlp : '(' ∉ q) (hrp : ')' ∉ q)
    (hminus : '-' ∉ q) (hcolon : ':' ∉ q)
    (hand : q ≠ str "AND") (hamp : q ≠ str "&&")
    (hor : q ≠ str "OR") (hpipe : q ≠ str "||") (hnot : q ≠ str "NOT") :
    parseSearchQuery q = Except.ok (some (Expr.term q)) := by
  unfold parseSearchQuery
  rw [tokenizeQuery_single q hq hsp hquote hlp hrp hminus hcolon hand hamp hor hpipe hnot]
  rfl

end Obsidian

namespace Obsidian

theorem jsOrStr_self (w : JSStr) : jsOrStr w w = w := by
  unfold jsOrStr
  split <;> rfl

theorem findOpsGo_single (allLines : List JSStr) (w : JSStr) (cs ic : Bool) (n : Nat) :
    ∀ (idx : Nat) (ls : List JSStr),
      findOpsGo allLines [w] w cs ic n idx ls =
        findPlainGo allLines w (if cs then w else lowerStr w) cs ic n idx ls := by
  intro idx ls
  induction ls generalizing idx with
  | nil => rfl
  | cons l ls ih =>
    simp only [findOpsGo, findPlainGo, List.any_cons, List.any_nil, Bool.or_false]
    by_cases hp : containsSub (if cs then l else lowerStr l) (if cs then w else lowerStr w) = true
    · rw [if_pos hp, if_pos hp, ih]
      cases ic with
      | false => rfl
      | true =>
        have hfind : List.find?
            (fun t => containsSub (if cs then l else lowerStr l) (if cs then t else lowerStr t))
            [w] = some w := by
          rw [List.find?_cons]
          cases hpt : containsSub (if cs then l else lowerStr l) (if cs then w else lowerStr w) with
          | false => rw [hpt] at hp; cases hp
          | true => rfl
        simp only [hfind, Option.getD_some, jsOrStr_self]
    · rw [if_neg hp, if_neg hp, ih]

theorem findPlainGo_nil_of_no_match (allLines : List JSStr) (q sq : JSStr)
    (cs ic : Bool) (n : Nat) :
    ∀ (idx : Nat) (ls : List JSStr),
      (∀ l ∈ ls, containsSub (if cs then l else lowerStr l) sq = false) →
      findPlainGo allLines q sq cs ic n idx ls = [] := by
  intro idx ls
  induction ls generalizing idx with
  | nil => intro h; rfl
  | cons l ls ih =>
    intro h
    simp only [findPlainGo]
    rw [if_neg (by simp [h l (List.mem_cons_self l ls)])]
    exact ih (idx + 1) (fun x hx => h x (List.mem_cons_of_mem l hx))

end Obsidian

namespace Obsidian

/-- C1, amended: for a query that is one single word — nonempty, without
whitespace, clearing the operator heuristic (no word-bounded AND/OR/NOT and
none of the characters `:`, `-`, `(`, `)`, `"`), and not one of the operator
words `&&`/`||` — the expression-mode matcher returns exactly the plain-mode
matcher's result. -/
theorem claim1_single_word_agree (content query : JSStr) (md : Metadata)
    (cs ic : Bool) (ctxN : Nat)
    (hops : hasOperators query = false)
    (hsp : ∀ c ∈ query, isSpace c = false)
    (hamp : query ≠ str "&&") (hpipe : query ≠ str "||") :
    findMatchesWithOperators content query md cs ic ctxN =
      Except.ok (findMatchesInContent content query cs ic ctxN) := by
  by_cases hcontent : content = []
  · simp [findMatchesWithOperators, findMatchesInContent, hcontent]
  by_cases hquery : query = []
  · subst hquery
    unfold findMatchesWithOperators findMatchesInContent
    rw [if_neg hcontent, if_neg hcontent]
    rw [show parseSearchQuery [] = Except.ok none from rfl]
    rfl
  · have hand : query ≠ str "AND" := by
      rintro rfl
      exact absurd hops (by decide)
    have hor : query ≠ str "OR" := by
      rintro rfl
      exact absurd hops (by decide)
    have hnot : query ≠ str "NOT" := by
      rintro rfl
      exact absurd hops (by decide)
    have hcharsF := (Bool.or_eq_false_iff.mp hops).2
    have hchars : ∀ x ∈ query,
        ¬(x = ':' ∨ x = '-' ∨ x = '(' ∨ x = ')' ∨ x = '"') := by
      intro x hx hcontra
      have hx2 := (List.any_eq_false.mp hcharsF) x hx
      rcases hcontra with h | h | h | h | h <;> simp [h] at hx2
    have hcolon : ':' ∉ query := fun h => hchars ':' h (Or.inl rfl)
    have hminus : '-' ∉ query := fun h => hchars '-' h (Or.inr (Or.inl rfl))
    have hlp : '(' ∉ query := fun h => hchars '(' h (Or.inr (Or.inr (Or.inl rfl)))
    have hrp : ')' ∉ query := fun h => hchars ')' h (Or.inr (Or.inr (Or.inr (Or.inl rfl))))
    have hquote : '"' ∉ query := fun h => hchars '"' h (Or.inr (Or.inr (Or.inr (Or.inr rfl))))
    have hparse := parseSearchQuery_single query hquery hsp hquote hlp hrp hminus hcolon
      hand hamp hor hpipe hnot
    unfold findMatchesWithOperators findMatchesInContent
    rw [if_neg hcontent, if_neg hcontent, if_neg hquery, hparse]
    cases hev : evalExpr (Expr.term query) content md with
    | false =>
      simp only [hev, Bool.not_false, if_true]
      have hterm : containsSub (lowerStr content) (lowerStr query) = false := by
        have hev2 := hev
        unfold evalExpr at hev2
        exact ((Bool.or_eq_false_iff.mp hev2).1 |> Bool.or_eq_false_iff.mp).1
      have hnone : ∀ l ∈ splitLines content,
          containsSub (if cs then l else lowerStr l)
            (if cs then query else lowerStr query) = false := by
        intro l hl
        cases hcl : containsSub (if cs then l else lowerStr l)
            (if cs then query else lowerStr query) with
        | false => rfl
        | true =>
          have := mem_splitLines_contains cs hl hcl
          rw [this] at hterm
          cases hterm
      rw [findPlainGo_nil_of_no_match (splitLines content) query
        (if cs then query else lowerStr query) cs ic ctxN 0 (splitLines content) hnone]
    | true =>
      simp only [hev, Bool.not_true, if_false]
      exact congrArg Except.ok
        (findOpsGo_single (splitLines content) query cs ic ctxN 0 (splitLines content))

end Obsidian

namespace Obsidian

/-- C1, counterexample: the two-word query `a b` has no boolean syntax (the
operator heuristic rejects it), yet on the document `a\nb` the plain matcher
finds no line containing the substring `a b`, while the expression matcher
parses `AND(a, b)`, accepts the document, and returns both lines. -/
theorem claim1_counterexample :
    hasOperators (str "a b") = false ∧
    findMatchesInContent (str "a\nb") (str "a b") false false 2 = [] ∧
    findMatchesWithOperators (str "a\nb") (str "a b") ⟨[], []⟩ false false 2 =
      Except.ok [⟨1, str "a", none⟩, ⟨2, str "b", none⟩] :=
  ⟨rfl, rfl, rfl⟩

/-- C1 witness: the single word `hello` satisfies the amended hypotheses and
the two matchers agree. -/
theorem claim1_witness :
    (hasOperators (str "hello") = false ∧ (∀ c ∈ str "hello", isSpace c = false) ∧
      str "hello" ≠ str "&&" ∧ str "hello" ≠ str "||") ∧
    findMatchesWithOperators (str "say hello\nworld") (str "hello") ⟨str "T", [str "t"]⟩
        false true 2 =
      Except.ok (findMatchesInContent (str "say hello\nworld") (str "hello") false true 2) :=
  ⟨⟨by decide, by decide, by decide, by decide⟩,
   claim1_single_word_agree (str "say hello\nworld") (str "hello") ⟨str "T", [str "t"]⟩
     false true 2 (by decide) (by decide) (by decide) (by decide)⟩

end Obsidian

namespace Obsidian

/-! ## Claim C3: pagination round trip -/

theorem flatMatches_cons (f : FileEntry) (files : List FileEntry) :
    flatMatches (f :: files) =
      f.«matches».map (fun m => (f.path, m)) ++ flatMatches files := by
  simp [flatMatches]

theorem mem_flatMatches_fst :
    ∀ (files : List FileEntry) (pm : JSStr × SearchMatch),
      pm ∈ flatMatches files → pm.1 ∈ files.map FileEntry.path := by
  intro files
  induction files with
  | nil =>
    intro pm h
    simp [flatMatches] at h
  | cons f fs ih =>
    intro pm h
    rw [flatMatches_cons, List.mem_append] at h
    rcases h with h | h
    · rcases List.mem_map.mp h with ⟨m, _, rfl⟩
      simp
    · simp only [List.map_cons, List.mem_cons]
      exact Or.inr (ih pm h)

theorem map_snd_repair (p : JSStr) :
    ∀ l : List (JSStr × SearchMatch), (∀ x ∈ l, x.1 = p) →
      (l.map Prod.snd).map (fun m => (p, m)) = l := by
  intro l
  induction l with
  | nil => intro h; rfl
  | cons x xs ih =>
    intro h
    simp only [List.map_cons, List.cons.injEq]
    constructor
    · have := h x (List.mem_cons_self x xs)
      rw [← this]
    · exact ih (fun y hy => h y (List.mem_cons_of_mem x hy))

theorem regroupFiles_cons (s : List (JSStr × SearchMatch)) (f : FileEntry)
    (fs : List FileEntry) :
    regroupFiles s (f :: fs) =
      if ((s.filter (fun pm => pm.1 = f.path)).map (fun pm => pm.2)).isEmpty then
        regroupFiles s fs
      else
        ⟨f.path, ((s.filter (fun pm => pm.1 = f.path)).map (fun pm => pm.2)).length,
         (s.filter (fun pm => pm.1 = f.path)).map (fun pm => pm.2), false⟩ ::
          regroupFiles s fs := by
  unfold regroupFiles
  rw [List.filterMap_cons]
  cases h : ((s.filter (fun pm => pm.1 = f.path)).map (fun pm => pm.2)).isEmpty with
  | true =>
    simp only [h]
    rfl
  | false =>
    simp only [h]
    rfl

theorem regroup_flatten :
    ∀ (files : List FileEntry) (a b : Nat),
      (files.map FileEntry.path).Nodup →
      flatMatches (regroupFiles (((flatMatches files).drop a).take b) files) =
        ((flatMatches files).drop a).take b := by
  intro files
  induction files with
  | nil =>
    intro a b _
    simp [flatMatches, regroupFiles]
  | cons f fs ih =>
    intro a b hnd
    have hnotin : f.path ∉ fs.map FileEntry.path := (List.nodup_cons.mp hnd).1
    have hnd2 : (fs.map FileEntry.path).Nodup := (List.nodup_cons.mp hnd).2
    have hsplit : ((flatMatches (f :: fs)).drop a).take b =
        (((f.«matches».map (fun m => (f.path, m))).drop a).take b) ++
        (((flatMatches fs).drop (a - (f.«matches».map (fun m => (f.path, m))).length)).take
          (b - ((f.«matches».map (fun m => (f.path, m))).drop a).length)) := by
      rw [flatMatches_cons, List.drop_append_eq_append_drop, List.take_append_eq_append_take]
    rw [hsplit]
    generalize hs1 : ((f.«matches».map (fun m => (f.path, m))).drop a).take b = s1 at *
    generalize hs2 : ((flatMatches fs).drop
        (a - (f.«matches».map (fun m => (f.path, m))).length)).take
        (b - ((f.«matches».map (fun m => (f.path, m))).drop a).length) = s2 at *
    have hs1mem : ∀ pm ∈ s1, pm.1 = f.path := by
      intro pm hpm
      rw [← hs1] at hpm
      have h1 : pm ∈ f.«matches».map (fun m => (f.path, m)) :=
        List.drop_subset a (f.«matches».map (fun m => (f.path, m)))
          (List.take_subset b ((f.«matches».map (fun m => (f.path, m))).drop a) hpm)
      rcases List.mem_map.mp h1 with ⟨m, _, rfl⟩
      rfl
    have hs2mem : ∀ pm ∈ s2, pm.1 ∈ fs.map FileEntry.path := by
      intro pm hpm
      rw [← hs2] at hpm
      have h1 : pm ∈ flatMatches fs :=
        List.drop_subset (a - (f.«matches».map (fun m => (f.path, m))).length) (flatMatches fs)
          (List.take_subset (b - ((f.«matches».map (fun m => (f.path, m))).drop a).length)
            ((flatMatches fs).drop
              (a - (f.«matches».map (fun m => (f.path, m))).length)) hpm)
      exact mem_flatMatches_fst fs pm h1
    have hfilter1 : s1.filter (fun pm => pm.1 = f.path) = s1 :=
      List.filter_eq_self.mpr (fun pm hpm => by simp [hs1mem pm hpm])
    have hfilter2 : s2.filter (fun pm => pm.1 = f.path) = [] :=
      List.filter_eq_nil_iff.mpr (fun pm hpm => by
        simp only [decide_eq_true_eq]
        intro h
        exact hnotin (h ▸ hs2mem pm hpm))
    have hcongr : regroupFiles (s1 ++ s2) fs = regroupFiles s2 fs := by
      unfold regroupFiles
      refine List.filterMap_congr ?_
      intro g hg
      have hgne : ¬ f.path = g.path := by
        intro h
        exact hnotin (h ▸ List.mem_map.mpr ⟨g, hg, rfl⟩)
      have heq : (s1 ++ s2).filter (fun pm => pm.1 = g.path) =
          s2.filter (fun pm => pm.1 = g.path) := by
        rw [List.filter_append]
        rw [show s1.filter (fun pm => pm.1 = g.path) = [] from
          List.filter_eq_nil_iff.mpr (fun pm hpm => by
            simp only [decide_eq_true_eq]
            intro h
            exact hgne ((hs1mem pm hpm) ▸ h))]
        rfl
      simp only [heq]
    have hrest : flatMatches (regroupFiles s2 fs) = s2 := by
      rw [← hs2]
      exact ih (a - (f.«matches».map (fun m => (f.path, m))).length)
        (b - ((f.«matches».map (fun m => (f.path, m))).drop a).length) hnd2
    rw [regroupFiles_cons, List.filter_append, hfilter1, hfilter2, List.append_nil, hcongr]
    by_cases h1 : s1 = []
    · subst h1
      simp only [List.map_nil, List.isEmpty_nil, if_true, List.nil_append]
      exact hrest
    · have hne : (s1.map (fun pm => pm.2)).isEmpty = false := by
        cases s1 with
        | nil => exact absurd rfl h1
        | cons x xs => rfl
      rw [if_neg (by simp [hne])]
      rw [flatMatches_cons]
      show (s1.map (fun pm => pm.2)).map (fun m => (f.path, m)) ++
        flatMatches (regroupFiles s2 fs) = s1 ++ s2
      rw [hrest, map_snd_repair f.path s1 hs1mem]

end Obsidian

namespace Obsidian

theorem pageFlat_paginate (r : SearchResult) (limit offset : Nat)
    (hnd : (r.files.map FileEntry.path).Nodup) :
    pageFlat (paginateSearchResults r limit offset) =
      ((flatMatches r.files).drop offset).take limit :=
  regroup_flatten r.files offset limit hnd

theorem paginate_hasMore (r : SearchResult) (limit offset : Nat) :
    (paginateSearchResults r limit offset).pagination.hasMore =
      decide (offset + (((flatMatches r.files).drop offset).take limit).length <
        (flatMatches r.files).length) := rfl

theorem collectPagesGo_join (r : SearchResult) (limit : Nat) (hl : 0 < limit)
    (hnd : (r.files.map FileEntry.path).Nodup) :
    ∀ (fuel offset : Nat), (flatMatches r.files).length - offset < fuel →
      ((collectPagesGo r limit offset fuel).map pageFlat).flatten =
        (flatMatches r.files).drop offset := by
  intro fuel
  induction fuel with
  | zero =>
    intro offset h
    omega
  | succ n ih =>
    intro offset h
    have hslice := pageFlat_paginate r limit offset hnd
    have hlen : (((flatMatches r.files).drop offset).take limit).length =
        min limit ((flatMatches r.files).length - offset) := by
      rw [List.length_take, List.length_drop]
    simp only [collectPagesGo, paginate_hasMore]
    by_cases hmore : offset + (((flatMatches r.files).drop offset).take limit).length <
        (flatMatches r.files).length
    · rw [if_pos (by simpa using hmore)]
      simp only [List.map_cons, List.flatten_cons]
      rw [hslice, ih (offset + limit) (by omega)]
      have hdd : (flatMatches r.files).drop (offset + limit) =
          ((flatMatches r.files).drop offset).drop limit := by
        rw [List.drop_drop]
      rw [hdd]
      exact List.take_append_drop limit ((flatMatches r.files).drop offset)
    · rw [if_neg (by simpa using hmore)]
      simp only [List.map_cons, List.map_nil, List.flatten_cons, List.flatten_nil,
        List.append_nil]
      rw [hslice]
      refine List.take_of_length_le ?_
      rw [List.length_drop]
      omega

theorem collectPagesGo_getElem (r : SearchResult) (limit : Nat) :
    ∀ (fuel offset k : Nat),
      (collectPagesGo r limit offset fuel)[k]? = none ∨
      (collectPagesGo r limit offset fuel)[k]? =
        some (paginateSearchResults r limit (offset + k * limit)) := by
  intro fuel
  induction fuel with
  | zero =>
    intro offset k
    left
    rfl
  | succ n ih =>
    intro offset k
    simp only [collectPagesGo]
    split
    · cases k with
      | zero =>
        right
        simp
      | succ k2 =>
        simp only [List.getElem?_cons_succ]
        rcases ih (offset + limit) k2 with h | h
        · exact Or.inl h
        · right
          rw [h]
          congr 2
          ring
    · cases k with
      | zero =>
        right
        simp
      | succ k2 =>
        left
        simp

end Obsidian

namespace Obsidian

/-- C3, amended: for any corpus and positive limit, the pages returned by
the paginated vault search at offsets `0, limit, 2·limit, …` until
`hasMore = false` concatenate exactly (each element once, in order) to the
full unpaginated match sequence of the transformed results — the per-file
matches produced by `transformSearchResults`, which caps each file at its
first 5 matches — flattened in sorted-file order with ascending line order
within each file.  The first conjunct checks the offset schedule. -/
theorem claim3_pagination_roundtrip (extractTagsFn : JSStr → List JSStr)
    (corpus : List (JSStr × JSStr)) (vaultPath query : JSStr)
    (cs ic : Bool) (ctxN limit : Nat) (hl : 0 < limit)
    (hnd : ((transformSearchResults (searchVaultMatches extractTagsFn corpus query cs ic ctxN)
      vaultPath).files.map FileEntry.path).Nodup) :
    (∀ k : Nat,
      (collectVaultPages extractTagsFn corpus vaultPath query cs ic ctxN limit)[k]? = none ∨
      (collectVaultPages extractTagsFn corpus vaultPath query cs ic ctxN limit)[k]? =
        some (searchVaultPure extractTagsFn corpus vaultPath query cs ic ctxN limit
          (k * limit))) ∧
    ((collectVaultPages extractTagsFn corpus vaultPath query cs ic ctxN limit).map
        pageFlat).flatten =
      flatMatches (transformSearchResults
        (searchVaultMatches extractTagsFn corpus query cs ic ctxN) vaultPath).files := by
  constructor
  · intro k
    have h := collectPagesGo_getElem
      (transformSearchResults (searchVaultMatches extractTagsFn corpus query cs ic ctxN)
        vaultPath) limit
      ((flatMatches (transformSearchResults
        (searchVaultMatches extractTagsFn corpus query cs ic ctxN) vaultPath).files).length + 1)
      0 k
    simpa [collectVaultPages, collectPages, searchVaultPure] using h
  · have h := collectPagesGo_join
      (transformSearchResults (searchVaultMatches extractTagsFn corpus query cs ic ctxN)
        vaultPath) limit hl hnd
      ((flatMatches (transformSearchResults
        (searchVaultMatches extractTagsFn corpus query cs ic ctxN) vaultPath).files).length + 1)
      0 (by omega)
    simpa [collectVaultPages, collectPages] using h

/-- C3 witness: two one-match files paginated with limit 1. -/
theorem claim3_witness :
    (0 < 1 ∧
      ((transformSearchResults (searchVaultMatches (fun _ => [])
        [(str "a.md", str "x"), (str "b.md", str "x")] (str "x") false false 2)
        []).files.map FileEntry.path).Nodup) ∧
    ((collectVaultPages (fun _ => []) [(str "a.md", str "x"), (str "b.md", str "x")] []
        (str "x") false false 2 1).map pageFlat).flatten =
      flatMatches (transformSearchResults (searchVaultMatches (fun _ => [])
        [(str "a.md", str "x"), (str "b.md", str "x")] (str "x") false false 2) []).files :=
  ⟨⟨by decide, by decide⟩,
   (claim3_pagination_roundtrip (fun _ => []) [(str "a.md", str "x"), (str "b.md", str "x")]
     [] (str "x") false false 2 1 (by decide) (by decide)).2⟩

/-- C3, counterexample: a single file whose six lines all match.  The full
match list of the file has six entries, but `transformSearchResults` keeps
only the first five, so the single returned page (already reporting
`hasMore = false` under a large limit) holds five matches: the sixth match
appears on no page, refuting the claim for the full unpaginated match
list. -/
theorem claim3_counterexample :
    (findMatchesInContent (str "x\nx\nx\nx\nx\nx") (str "x") false false 2).length = 6 ∧
    (collectVaultPages (fun _ => []) [(str "a.md", str "x\nx\nx\nx\nx\nx")] [] (str "x")
        false false 2 100).map (fun p => ((pageFlat p).length, p.pagination.hasMore)) =
      [(5, false)] :=
  ⟨rfl, rfl⟩

end Obsidian

namespace Obsidian

/-- The highlight loop is fuel-stable: any fuel beyond the line length gives
the same result, so the canonical `line.length + 1` in `highlightMatch`
never truncates the scan. -/
theorem highlightLoop_fuel_congr (query : JSStr) (cs : Bool) (hq : query ≠ []) :
    ∀ (n : Nat) (l : List Char), l.length ≤ n →
      ∀ f₁ f₂, l.length < f₁ → l.length < f₂ →
        highlightLoop query cs f₁ l = highlightLoop query cs f₂ l := by
  intro n
  induction n with
  | zero =>
    intro l hl f₁ f₂ h1 h2
    have : l = [] := List.eq_nil_of_length_eq_zero (by omega)
    subst this
    obtain ⟨g₁, rfl⟩ : ∃ g, f₁ = g + 1 := ⟨f₁ - 1, by omega⟩
    obtain ⟨g₂, rfl⟩ : ∃ g, f₂ = g + 1 := ⟨f₂ - 1, by omega⟩
    rfl
  | succ n ih =>
    intro l hl f₁ f₂ h1 h2
    obtain ⟨g₁, rfl⟩ : ∃ g, f₁ = g + 1 := ⟨f₁ - 1, by omega⟩
    obtain ⟨g₂, rfl⟩ : ∃ g, f₂ = g + 1 := ⟨f₂ - 1, by omega⟩
    cases l with
    | nil => rfl
    | cons c rest =>
      have hqlen : 0 < query.length := by
        cases query with
        | nil => exact absurd rfl hq
        | cons a b => simp
      have hb : (c :: rest).length = rest.length + 1 := rfl
      rw [hb] at hl h1 h2
      simp only [highlightLoop]
      split
      · rw [ih ((c :: rest).drop query.length)
          (by rw [List.length_drop, hb]; omega) g₁ g₂
          (by rw [List.length_drop, hb]; omega)
          (by rw [List.length_drop, hb]; omega)]
      · rw [ih rest (by omega) g₁ g₂ (by omega) (by omega)]

end Obsidian

namespace Obsidian

end Obsidian

namespace Obsidian

/-- One stable step of the scanning loop: with enough fuel on both sides,
unfolding one character step preserves agreement.  Auxiliary for
`tokenizeLoop_fuel_congr`. -/
theorem tokenizeLoop_step_congr (g₁ g₂ : Nat) (c : Char) (rest : List Char)
    (ih : ∀ x : List Char, x.length ≤ rest.length →
      tokenizeLoop g₁ x = tokenizeLoop g₂ x) :
    tokenizeLoop (g₁ + 1) (c :: rest) = tokenizeLoop (g₂ + 1) (c :: rest) := by
  simp only [tokenizeLoop]
  by_cases hsp : isSpace c = true
  · rw [if_pos hsp, if_pos hsp]
    exact ih rest (Nat.le_refl _)
  · rw [if_neg hsp, if_neg hsp]
    by_cases hq : c = '"'
    · rw [if_pos hq, if_pos hq]
      rcases heq : rest.dropWhile (fun x => !(x = '"')) with _ | ⟨d, after⟩
      · simp only [heq]
      · simp only [heq]
        have hlen : after.length + 1 ≤ rest.length := by
          have hd := length_dropWhile_le (fun x => !(x = '"')) rest
          rw [heq] at hd
          simpa using hd
        exact congrArg _ (ih after (by omega))
    · rw [if_neg hq, if_neg hq]
      by_cases hlp : c = '('
      · rw [if_pos hlp, if_pos hlp]
        exact congrArg _ (ih rest (Nat.le_refl _))
      · rw [if_neg hlp, if_neg hlp]
        by_cases hrp : c = ')'
        · rw [if_pos hrp, if_pos hrp]
          exact congrArg _ (ih rest (Nat.le_refl _))
        · rw [if_neg hrp, if_neg hrp]
          by_cases hm : (decide (c = '-') && minusNextNonSpace rest) = true
          · rw [if_pos hm, if_pos hm]
            exact congrArg _ (ih rest (Nat.le_refl _))
          · rw [if_neg hm, if_neg hm]
            have hsp' : isSpace c = false := by
              revert hsp
              cases isSpace c <;> simp
            have hws : wordStop c = false := by
              simp [wordStop, hsp', hq, hlp, hrp]
            have hr'le : ((c :: rest).dropWhile (fun x => !(wordStop x))).length ≤
                rest.length := by
              rw [List.dropWhile_cons, if_pos (by simp [hws])]
              exact length_dropWhile_le _ rest
            by_cases h1 : (decide ((c :: rest).takeWhile (fun x => !(wordStop x)) = str "AND") ||
                decide ((c :: rest).takeWhile (fun x => !(wordStop x)) = str "&&")) = true
            · rw [if_pos h1, if_pos h1]
              exact congrArg _ (ih _ hr'le)
            · rw [if_neg h1, if_neg h1]
              by_cases h2 : (decide ((c :: rest).takeWhile (fun x => !(wordStop x)) = str "OR") ||
                  decide ((c :: rest).takeWhile (fun x => !(wordStop x)) = str "||")) = true
              · rw [if_pos h2, if_pos h2]
                exact congrArg _ (ih _ hr'le)
              · rw [if_neg h2, if_neg h2]
                by_cases h3 : (c :: rest).takeWhile (fun x => !(wordStop x)) = str "NOT"
                · rw [if_pos h3, if_pos h3]
                  exact congrArg _ (ih _ hr'le)
                · rw [if_neg h3, if_neg h3]
                  by_cases h4 : ((c :: rest).takeWhile (fun x => !(wordStop x))).contains
                      ':' = true
                  · rw [if_pos h4, if_pos h4]
                    by_cases h5 :
                        ((c :: rest).takeWhile (fun x => !(wordStop x))).takeWhile
                          (fun x => !(x = ':')) ≠ [] ∧
                        (((c :: rest).takeWhile (fun x => !(wordStop x))).dropWhile
                          (fun x => !(x = ':'))).drop 1 ≠ []
                    · rw [if_pos h5, if_pos h5]
                      by_cases h6 :
                          ((((c :: rest).takeWhile (fun x => !(wordStop x))).dropWhile
                            (fun x => !(x = ':'))).drop 1).head? = some '"'
                      · rw [if_pos h6, if_pos h6]
                        by_cases h7 :
                            (((((c :: rest).takeWhile (fun x => !(wordStop x))).dropWhile
                              (fun x => !(x = ':'))).drop 1).drop 1).contains '"' = true
                        · rw [if_pos h7, if_pos h7]
                          exact congrArg _ (ih _ hr'le)
                        · rw [if_neg h7, if_neg h7]
                          rcases heq2 : ((c :: rest).dropWhile
                              (fun x => !(wordStop x))).dropWhile (fun x => !(x = '"')) with
                            _ | ⟨d, after⟩
                          · simp only [heq2]
                          · simp only [heq2]
                            have hlen2 : after.length + 1 ≤
                                ((c :: rest).dropWhile (fun x => !(wordStop x))).length := by
                              have hd := length_dropWhile_le (fun x => !(x = '"'))
                                ((c :: rest).dropWhile (fun x => !(wordStop x)))
                              rw [heq2] at hd
                              simpa using hd
                            exact congrArg _ (ih after (by omega))
                      · rw [if_neg h6, if_neg h6]
                        exact congrArg _ (ih _ hr'le)
                    · rw [if_neg h5, if_neg h5]
                      by_cases h8 :
                          ((c :: rest).takeWhile (fun x => !(wordStop x))).takeWhile
                            (fun x => !(x = ':')) ≠ [] ∧
                          (((c :: rest).takeWhile (fun x => !(wordStop x))).dropWhile
                            (fun x => !(x = ':'))).drop 1 = [] ∧
                          ((c :: rest).dropWhile (fun x => !(wordStop x))).head? = some '"'
                      · rw [if_pos h8, if_pos h8]
                        rcases heq3 : (((c :: rest).dropWhile
                            (fun x => !(wordStop x))).drop 1).dropWhile
                            (fun x => !(x = '"')) with _ | ⟨d, after⟩
                        · simp only [heq3]
                        · simp only [heq3]
                          have hlen3 : after.length + 1 ≤
                              (((c :: rest).dropWhile (fun x => !(wordStop x))).drop
                                1).length := by
                            have hd := length_dropWhile_le (fun x => !(x = '"'))
                              (((c :: rest).dropWhile (fun x => !(wordStop x))).drop 1)
                            rw [heq3] at hd
                            simpa using hd
                          have hdrop1 : (((c :: rest).dropWhile
                              (fun x => !(wordStop x))).drop 1).length ≤
                              ((c :: rest).dropWhile (fun x => !(wordStop x))).length := by
                            rw [List.length_drop]
                            omega
                          exact congrArg _ (ih after (by omega))
                      · rw [if_neg h8, if_neg h8]
                        exact ih _ hr'le
                  · rw [if_neg h4, if_neg h4]
                    exact congrArg _ (ih _ hr'le)

end Obsidian

namespace Obsidian

/-- The tokenizer scanning loop is fuel-stable: every scanning step consumes
at least one character, so any fuel beyond the input length gives the same
token stream. -/
theorem tokenizeLoop_fuel_congr :
    ∀ (n : Nat) (cs : List Char), cs.length ≤ n →
      ∀ (f₁ f₂ : Nat), cs.length < f₁ → cs.length < f₂ →
        tokenizeLoop f₁ cs = tokenizeLoop f₂ cs := by
  intro n
  induction n with
  | zero =>
    intro cs hl f₁ f₂ h1 h2
    have hnil : cs = [] := List.eq_nil_of_length_eq_zero (by omega)
    subst hnil
    obtain ⟨g₁, rfl⟩ : ∃ g, f₁ = g + 1 := ⟨f₁ - 1, by omega⟩
    obtain ⟨g₂, rfl⟩ : ∃ g, f₂ = g + 1 := ⟨f₂ - 1, by omega⟩
    rfl
  | succ n ih =>
    intro cs hl f₁ f₂ h1 h2
    obtain ⟨g₁, rfl⟩ : ∃ g, f₁ = g + 1 := ⟨f₁ - 1, by omega⟩
    obtain ⟨g₂, rfl⟩ : ∃ g, f₂ = g + 1 := ⟨f₂ - 1, by omega⟩
    cases cs with
    | nil => rfl
    | cons c rest =>
      have hb : (c :: rest).length = rest.length + 1 := rfl
      rw [hb] at hl h1 h2
      exact tokenizeLoop_step_congr g₁ g₂ c rest
        (fun x hx => ih x (by omega) g₁ g₂ (by omega) (by omega))

/-- The canonical fuel of `tokenizeChars` never truncates: any sufficient
fuel computes the same token stream. -/
theorem tokenizeLoop_eq_tokenizeChars (fuel : Nat) (cs : List Char)
    (h : cs.length < fuel) : tokenizeLoop fuel cs = tokenizeChars cs :=
  tokenizeLoop_fuel_congr cs.length cs (Nat.le_refl _) fuel (cs.length + 1) h
    (Nat.lt_succ_self _)

/-- The canonical fuel of `highlightMatch` never truncates either. -/
theorem highlightLoop_eq_canonical (query : JSStr) (cs : Bool) (hq : query ≠ [])
    (fuel : Nat) (l : List Char) (h : l.length < fuel) :
    highlightLoop query cs fuel l = highlightLoop query cs (l.length + 1) l :=
  highlightLoop_fuel_congr query cs hq l.length l (Nat.le_refl _) fuel (l.length + 1) h
    (Nat.lt_succ_self _)

end Obsidian
